import Mathlib

/-!
Verification of the PD-TSP experiment-analysis pipeline.

Each definition below is a shallow embedding of a function of the
repository's Python scripts; theorems check the specification's claims
against those embeddings.  Numeric float values are modelled as rationals,
node ids and instance ids as naturals, Python dicts as association lists.
-/

namespace PDTSP

/-! ### Pareto front — `report/analyze_and_plot.py`, `pareto_front`

A point is a (time, cost) pair.  `pareto_front` keeps the points that no
other point dominates, where `q` dominates `p` when
`q.time ≤ p.time and q.cost ≤ p.cost and (q.time < p.time or q.cost < p.cost)`.
The source skips the comparison of a point with itself (`if j == i: continue`);
since equal points never satisfy the strict part of the condition, filtering
over all points is equivalent. -/

abbrev Point := ℚ × ℚ

def dominatesB (q p : Point) : Bool :=
  decide (q.1 ≤ p.1) && decide (q.2 ≤ p.2) && (decide (q.1 < p.1) || decide (q.2 < p.2))

def Dominates (q p : Point) : Prop :=
  q.1 ≤ p.1 ∧ q.2 ≤ p.2 ∧ (q.1 < p.1 ∨ q.2 < p.2)

def isDominated (pts : List Point) (p : Point) : Bool :=
  pts.any fun q => dominatesB q p

def pareto_front (pts : List Point) : List Point :=
  pts.filter fun p => ! isDominated pts p

lemma dominatesB_iff (q p : Point) : dominatesB q p = true ↔ Dominates q p := by
  simp [dominatesB, Dominates, and_assoc]

lemma Dominates.irrefl (p : Point) : ¬ Dominates p p := by
  simp [Dominates]

lemma Dominates.trans {r q p : Point} (h₁ : Dominates r q) (h₂ : Dominates q p) :
    Dominates r p := by
  obtain ⟨h₁t, h₁c, h₁s⟩ := h₁
  obtain ⟨h₂t, h₂c, h₂s⟩ := h₂
  refine ⟨le_trans h₁t h₂t, le_trans h₁c h₂c, ?_⟩
  rcases h₂s with h | h
  · exact Or.inl (lt_of_le_of_lt h₁t h)
  · exact Or.inr (lt_of_le_of_lt h₁c h)

lemma Dominates.sum_lt {q p : Point} (h : Dominates q p) : q.1 + q.2 < p.1 + p.2 := by
  obtain ⟨ht, hc, hs⟩ := h
  rcases hs with h | h
  · exact add_lt_add_of_lt_of_le h hc
  · exact add_lt_add_of_le_of_lt ht h

lemma mem_pareto_front_iff (pts : List Point) (p : Point) :
    p ∈ pareto_front pts ↔ p ∈ pts ∧ ¬ ∃ q ∈ pts, Dominates q p := by
  simp [pareto_front, isDominated, List.mem_filter, dominatesB_iff]

lemma exists_front_dominator (pts : List Point) (p : Point)
    (h : ∃ q ∈ pts, Dominates q p) :
    ∃ q ∈ pareto_front pts, Dominates q p := by
  classical
  set S := pts.filter (fun q => dominatesB q p) with hS
  have hmemS : ∀ q, q ∈ S ↔ q ∈ pts ∧ Dominates q p := by
    intro q
    simp [hS, List.mem_filter, dominatesB_iff]
  have hSne : S ≠ [] := by
    obtain ⟨q, hq, hd⟩ := h
    intro hnil
    have : q ∈ S := (hmemS q).2 ⟨hq, hd⟩
    simp [hnil] at this
  obtain ⟨m, hm⟩ : ∃ m, m ∈ S.argmin (fun q => q.1 + q.2) := by
    cases hcase : S.argmin (fun q => q.1 + q.2) with
    | none => exact absurd (List.argmin_eq_none.mp hcase) hSne
    | some m => exact ⟨m, by simp [hcase]⟩
  have hmS : m ∈ S := List.argmin_mem hm
  have hmpts : m ∈ pts := ((hmemS m).1 hmS).1
  have hmdom : Dominates m p := ((hmemS m).1 hmS).2
  refine ⟨m, ?_, hmdom⟩
  rw [mem_pareto_front_iff]
  refine ⟨hmpts, ?_⟩
  rintro ⟨r, hr, hrd⟩
  have hrp : Dominates r p := hrd.trans hmdom
  have hrS : r ∈ S := (hmemS r).2 ⟨hr, hrp⟩
  have hle : m.1 + m.2 ≤ r.1 + r.2 := List.le_of_mem_argmin hrS hm
  have hlt : r.1 + r.2 < m.1 + m.2 := hrd.sum_lt
  exact absurd hle (not_le_of_lt hlt)

/-- C1.  `pareto_front` returns a subset of its input; a point is kept exactly
when no other input point dominates it (domination: `≤` in both coordinates
and `<` in at least one); the front contains no internally-dominated point;
every input point outside the front is dominated by some point of the front;
and on the input {(1,10), (2,5), (3,5)} the front is {(1,10), (2,5)}. -/
theorem pareto_front_spec (pts : List Point) :
    (∀ p ∈ pareto_front pts, p ∈ pts) ∧
    (∀ p, p ∈ pareto_front pts ↔ p ∈ pts ∧ ¬ ∃ q ∈ pts, q ≠ p ∧ Dominates q p) ∧
    (∀ p ∈ pareto_front pts, ¬ ∃ q ∈ pareto_front pts, Dominates q p) ∧
    (∀ p ∈ pts, p ∉ pareto_front pts → ∃ q ∈ pareto_front pts, Dominates q p) ∧
    pareto_front [((1 : ℚ), (10 : ℚ)), (2, 5), (3, 5)] = [(1, 10), (2, 5)] := by
  refine ⟨?_, ?_, ?_, ?_, by decide⟩
  · intro p hp
    exact ((mem_pareto_front_iff pts p).1 hp).1
  · intro p
    rw [mem_pareto_front_iff]
    constructor
    · rintro ⟨hp, hnd⟩
      exact ⟨hp, fun ⟨q, hq, _, hd⟩ => hnd ⟨q, hq, hd⟩⟩
    · rintro ⟨hp, hnd⟩
      refine ⟨hp, ?_⟩
      rintro ⟨q, hq, hd⟩
      have hne : q ≠ p := by
        rintro rfl
        exact Dominates.irrefl q hd
      exact hnd ⟨q, hq, hne, hd⟩
  · intro p hp
    rintro ⟨q, hq, hd⟩
    have hqpts : q ∈ pts := ((mem_pareto_front_iff pts q).1 hq).1
    exact ((mem_pareto_front_iff pts p).1 hp).2 ⟨q, hqpts, hd⟩
  · intro p hp hnotin
    have := (mem_pareto_front_iff pts p).not.1 hnotin
    push_neg at this
    exact exists_front_dominator pts p (this hp)

/-- Witness for C1: instantiated on the spec's example, the point (3,5) lies
outside the front and is dominated by a front point. -/
theorem pareto_front_spec_witness :
    ∃ q ∈ pareto_front [((1 : ℚ), (10 : ℚ)), (2, 5), (3, 5)], Dominates q (3, 5) :=
  (pareto_front_spec [((1 : ℚ), (10 : ℚ)), (2, 5), (3, 5)]).2.2.2.1
    (3, 5) (by decide) (by decide)

/-! ### Load profile — `scripts/visualize_solution.py`, `visualize_solution`

Demands are an association list from 0-based node id to signed demand
(`demands.get(node, 0)` lookup with default 0).  The source computes
`n_nodes = max(demands.keys()) + 1`, reads the depot demand (node 0) and the
return-depot demand (node `n_nodes - 1`), disambiguates the starting load by
the sign cases, then walks `tour[1:]` accumulating demands with a reset to 0
on a depot visit, and appends a final 0 entry. -/

def demandGet (ds : List (ℕ × ℤ)) (n : ℕ) : ℤ :=
  match ds.find? (fun kv => kv.1 == n) with
  | some kv => kv.2
  | none => 0

def maxKey (ds : List (ℕ × ℤ)) : ℕ :=
  (ds.map Prod.fst).foldl max 0

def startingLoad (ds : List (ℕ × ℤ)) : ℤ :=
  let d0 := demandGet ds 0
  let dr := demandGet ds (maxKey ds)
  if 0 ≤ d0 ∧ dr < 0 then max 0 (d0 + dr)
  else if 0 ≤ dr ∧ d0 < 0 then max 0 (dr + d0)
  else d0 + dr

def loadStep (ds : List (ℕ × ℤ)) (load : ℤ) (n : ℕ) : ℤ :=
  if n = 0 then 0 else load + demandGet ds n

def loadLoop (ds : List (ℕ × ℤ)) (load : ℤ) : List ℕ → List ℤ
  | [] => []
  | n :: rest => loadStep ds load n :: loadLoop ds (loadStep ds load n) rest

def loadProfile (ds : List (ℕ × ℤ)) (tour : List ℕ) : List ℤ :=
  (startingLoad ds :: loadLoop ds (startingLoad ds) (tour.drop 1)) ++ [0]

lemma loadLoop_eq_scanl (ds : List (ℕ × ℤ)) (load : ℤ) (tour : List ℕ) :
    load :: loadLoop ds load tour = List.scanl (loadStep ds) load tour := by
  induction tour generalizing load with
  | nil => simp [loadLoop, List.scanl_nil]
  | cons n rest ih =>
    rw [List.scanl_cons, loadLoop]
    simp [← ih (loadStep ds load n)]

/-- C2.  The load-profile simulation: the starting load is
`max 0 (depot + return_depot)` when one of the depot-like demands is
non-negative and the other negative, and the plain sum otherwise; the profile
is the scan of the tour's tail by "reset to 0 at the depot, else add the
signed demand", followed by a final return-to-depot entry 0; on demands
{0 ↦ 5, 1 ↦ 3, 2 ↦ -3, 3 ↦ -5} and tour [0,1,2,3] the profile is
[0, 3, 0, -5, 0], the negative entry retained rather than clamped. -/
theorem loadProfile_spec :
    (∀ ds : List (ℕ × ℤ),
      ((0 ≤ demandGet ds 0 ∧ demandGet ds (maxKey ds) < 0) ∨
       (0 ≤ demandGet ds (maxKey ds) ∧ demandGet ds 0 < 0) →
        startingLoad ds = max 0 (demandGet ds 0 + demandGet ds (maxKey ds))) ∧
      (¬ ((0 ≤ demandGet ds 0 ∧ demandGet ds (maxKey ds) < 0) ∨
          (0 ≤ demandGet ds (maxKey ds) ∧ demandGet ds 0 < 0)) →
        startingLoad ds = demandGet ds 0 + demandGet ds (maxKey ds))) ∧
    (∀ (ds : List (ℕ × ℤ)) (rest : List ℕ),
      loadProfile ds (0 :: rest) =
        List.scanl (loadStep ds) (startingLoad ds) rest ++ [0]) ∧
    loadProfile [(0, 5), (1, 3), (2, -3), (3, -5)] [0, 1, 2, 3] = [0, 3, 0, -5, 0] ∧
    (-5 : ℤ) ∈ loadProfile [(0, 5), (1, 3), (2, -3), (3, -5)] [0, 1, 2, 3] := by
  refine ⟨?_, ?_, by decide, by decide⟩
  · intro ds
    constructor
    · rintro (⟨h0, hr⟩ | ⟨hr, h0⟩)
      · simp [startingLoad, h0, hr]
      · rw [startingLoad]
        simp only [h0, hr, and_true, true_and]
        rw [if_neg (by omega), if_pos trivial]
        omega
    · intro h
      have h1 : ¬ (0 ≤ demandGet ds 0 ∧ demandGet ds (maxKey ds) < 0) :=
        fun hc => h (Or.inl hc)
      have h2 : ¬ (0 ≤ demandGet ds (maxKey ds) ∧ demandGet ds 0 < 0) :=
        fun hc => h (Or.inr hc)
      rw [startingLoad, if_neg h1, if_neg h2]
  · intro ds rest
    rw [loadProfile, List.drop_one, List.tail_cons, ← loadLoop_eq_scanl]

/-- Witness for C2: the starting-load case analysis evaluated on the example
demand map (depot demand 5 ≥ 0, return-depot demand -5 < 0). -/
theorem loadProfile_spec_witness :
    startingLoad [(0, 5), (1, 3), (2, -3), (3, -5)] =
      max 0 (demandGet [(0, 5), (1, 3), (2, -3), (3, -5)] 0 +
        demandGet [(0, 5), (1, 3), (2, -3), (3, -5)] (maxKey [(0, 5), (1, 3), (2, -3), (3, -5)])) :=
  (loadProfile_spec.1 [(0, 5), (1, 3), (2, -3), (3, -5)]).1 (by decide)

/-! ### Gap to exact — `analyze_results.py`, `plot_exact_vs_best_heuristic`

For each common instance, the source takes the first exact row's `Cost`
(`iloc[0]`), the minimum `MinCost` over the heuristic rows of that instance,
and, only when both are present (`pd.notna`) and the exact cost is positive,
records the gap `(heuristic − exact) / exact × 100`; other pairs are skipped
without error.  Missing values (NaN) are modelled with `Option`. -/

structure ERow where
  inst : ℕ
  cost : Option ℚ
deriving DecidableEq

structure HRow where
  inst : ℕ
  minCost : Option ℚ
deriving DecidableEq

def exactCostFor (rows : List ERow) (i : ℕ) : Option ℚ :=
  (rows.find? (fun r => r.inst == i)).bind ERow.cost

def bestHeurFor (rows : List HRow) (i : ℕ) : Option ℚ :=
  ((rows.filter (fun r => r.inst == i)).filterMap HRow.minCost).min?

def gapEntry (exact : List ERow) (heur : List HRow) (i : ℕ) : Option (ℕ × ℚ) :=
  match exactCostFor exact i, bestHeurFor heur i with
  | some e, some h => if 0 < e then some (i, (h - e) / e * 100) else none
  | _, _ => none

def computeGaps (insts : List ℕ) (exact : List ERow) (heur : List HRow) :
    List (ℕ × ℚ) :=
  insts.filterMap (gapEntry exact heur)

lemma gapEntry_fst {exact heur} {i j : ℕ} {g : ℚ}
    (h : gapEntry exact heur i = some (j, g)) : j = i := by
  unfold gapEntry at h
  cases he : exactCostFor exact i with
  | none => simp [he] at h
  | some e =>
    cases hh : bestHeurFor heur i with
    | none => simp [he, hh] at h
    | some b =>
      simp only [he, hh] at h
      by_cases hp : 0 < e
      · simp [hp] at h
        exact h.1.symm
      · simp [hp] at h

/-- C3.  For every instance having both an exact cost and a best heuristic
cost, the gap list contains `(heuristic − exact) / exact × 100` exactly when
the exact cost is positive; when it is not, the instance is omitted from the
gap list (never coerced to 0 — `computeGaps` is a total function, so no error
is raised); exact cost 100 with best heuristic cost 115 yields gap 15. -/
theorem computeGaps_spec (insts : List ℕ) (exact : List ERow) (heur : List HRow)
    (i : ℕ) (e h : ℚ)
    (he : exactCostFor exact i = some e) (hh : bestHeurFor heur i = some h) :
    (i ∈ insts → 0 < e → (i, (h - e) / e * 100) ∈ computeGaps insts exact heur) ∧
    (¬ 0 < e → ∀ g, (i, g) ∉ computeGaps insts exact heur) ∧
    computeGaps [7] [⟨7, some 100⟩] [⟨7, some 115⟩] = [(7, 15)] := by
  refine ⟨?_, ?_, ?_⟩
  · intro hins hpos
    rw [computeGaps, List.mem_filterMap]
    exact ⟨i, hins, by simp [gapEntry, he, hh, hpos]⟩
  · intro hneg g hmem
    rw [computeGaps, List.mem_filterMap] at hmem
    obtain ⟨a, _, ha⟩ := hmem
    have hia : i = a := gapEntry_fst ha
    subst hia
    simp [gapEntry, he, hh, hneg] at ha
  · simp only [computeGaps, gapEntry, exactCostFor, bestHeurFor, List.filterMap,
      List.find?, List.filter, List.min?]
    norm_num

/-- Witness for C3: applied to the spec's example (exact cost 100, best
heuristic cost 115), the gap 15 is reported. -/
theorem computeGaps_spec_witness :
    ((7 : ℕ), (15 : ℚ)) ∈ computeGaps [7] [⟨7, some 100⟩] [⟨7, some 115⟩] := by
  have h := (computeGaps_spec [7] [⟨7, some 100⟩] [⟨7, some 115⟩] 7 100 115
    (by decide) (by decide)).1 (by decide) (by decide)
  have hv : ((115 : ℚ) - 100) / 100 * 100 = 15 := by norm_num
  rwa [hv] at h

/-! ### Job runner — `scripts/run_benchmarks.py`, `run` / `main`

`main` builds the solver command (instance path, algorithm, `-t` internal
time limit, cost-function flags, output path) and `run` executes it with
`subprocess.check_call(cmd, stdout=..., stderr=..., env=...)`: no `timeout`
keyword is passed, so the wall-clock timeout of the call is `None`.  The
only failure handled is `CalledProcessError` (non-zero exit). -/

def costArgs (mode : String) (alphaStr : String) : List String :=
  if mode = "quadratic" then ["--cost-function", "quadratic", "--alpha", alphaStr]
  else if mode = "linear-load" then ["--cost-function", "linear-load", "--alpha", alphaStr]
  else ["--cost-function", "distance"]

def solveCmd (exe inst alg : String) (timeLimit : ℕ) (mode alphaStr out : String) :
    List String :=
  [exe, "solve", "-i", inst, "-a", alg, "-t", toString timeLimit,
    "--max-profit", "100"] ++ costArgs mode alphaStr ++ ["--output", out]

/-- One `subprocess.check_call` invocation: its argument vector and the
wall-clock timeout passed to the call (`none` = wait indefinitely). -/
structure SubprocCall where
  args : List String
  timeout : Option ℕ
deriving DecidableEq

def runJob (cmd : List String) : SubprocCall :=
  { args := cmd, timeout := none }

/-- Counterexample to C4: for the concrete job with internal time limit 60,
the runner's subprocess call carries no wall-clock timeout at all, so no
bound strictly greater than the solver's internal time-limit is enforced. -/
theorem runJob_no_timeout_counterexample :
    ¬ ∃ T : ℕ,
      (runJob (solveCmd "pd-tsp-solver.exe" "inst.tsp" "nn" 60 "distance" "0.1"
        "out.json")).timeout = some T ∧ 60 < T := by
  rintro ⟨T, hT, -⟩
  simp [runJob] at hT

/-- C4 (amended).  The runner passes the solver its internal time limit via
the `-t` argument but sets no external wall-clock timeout on the subprocess
call (`timeout = none`), for every job configuration: a hung solver process
is waited on indefinitely and no timeout status is recorded. -/
theorem runJob_spec (exe inst alg : String) (timeLimit : ℕ)
    (mode alphaStr out : String) :
    (runJob (solveCmd exe inst alg timeLimit mode alphaStr out)).timeout = none ∧
    solveCmd exe inst alg timeLimit mode alphaStr out =
      [exe, "solve", "-i", inst, "-a", alg, "-t", toString timeLimit,
        "--max-profit", "100"] ++ costArgs mode alphaStr ++ ["--output", out] :=
  ⟨rfl, rfl⟩

/-! ### Best result per alpha — `scripts/aggregate_quadratic_results.py`

`best_per_alpha = df.groupby('alpha').apply(lambda g: g.loc[g['objective'].idxmax()])`:
within each alpha group, pandas `idxmax` returns the index of the **first**
occurrence of the maximum objective, i.e. ties are broken by input order. -/

structure QRow where
  alpha : ℚ
  algorithm : String
  objective : ℚ
deriving DecidableEq

/-- The row`.loc[idxmax]` selects: the first row attaining the maximum
objective (the earlier row wins a tie). -/
def firstMaxRow : List QRow → Option QRow
  | [] => none
  | r :: rest =>
    match firstMaxRow rest with
    | none => some r
    | some b => if b.objective > r.objective then some b else some r

def best_per_alpha (rows : List QRow) (a : ℚ) : Option QRow :=
  firstMaxRow (rows.filter (fun x => decide (x.alpha = a)))

/-- Counterexample to C5: two rows tie on the maximum objective 50 for
alpha = 0; the code selects the earlier row (algorithm "B"), not the row
with the lexicographically smallest algorithm name ("A"). -/
theorem best_per_alpha_tie_counterexample :
    best_per_alpha [⟨0, "B", 50⟩, ⟨0, "A", 50⟩] 0 = some ⟨0, "B", 50⟩ ∧
    (⟨0, "B", 50⟩ : QRow).algorithm ≠ "A" := by
  constructor
  · rfl
  · decide

lemma firstMaxRow_eq_none {l : List QRow} : firstMaxRow l = none ↔ l = [] := by
  cases l with
  | nil => simp [firstMaxRow]
  | cons r rest =>
    simp only [firstMaxRow]
    cases firstMaxRow rest with
    | none => simp
    | some b =>
      by_cases hb : b.objective > r.objective <;> simp [hb]

lemma firstMaxRow_spec {l : List QRow} {r : QRow} (h : firstMaxRow l = some r) :
    r ∈ l ∧ (∀ x ∈ l, x.objective ≤ r.objective) ∧
    ∃ l₁ l₂, l = l₁ ++ r :: l₂ ∧ ∀ p ∈ l₁, p.objective < r.objective := by
  induction l generalizing r with
  | nil => simp [firstMaxRow] at h
  | cons a rest ih =>
    rw [firstMaxRow] at h
    split at h
    · rename_i hrest
      have hre : rest = [] := firstMaxRow_eq_none.mp hrest
      subst hre
      obtain rfl : a = r := by simpa using h
      exact ⟨by simp, by simp, [], [], by simp, by simp⟩
    · rename_i b hrest
      obtain ⟨hbmem, hbmax, l₁, l₂, hsplit, hfirst⟩ := ih hrest
      by_cases hgt : b.objective > a.objective
      · rw [if_pos hgt] at h
        obtain rfl : b = r := by simpa using h
        refine ⟨by simp [hbmem], ?_, a :: l₁, l₂, by simp [hsplit], ?_⟩
        · intro x hx
          rcases List.mem_cons.mp hx with rfl | hx
          · exact le_of_lt hgt
          · exact hbmax x hx
        · intro p hp
          rcases List.mem_cons.mp hp with rfl | hp
          · exact hgt
          · exact hfirst p hp
      · rw [if_neg hgt] at h
        obtain rfl : a = r := by simpa using h
        push_neg at hgt
        refine ⟨by simp, ?_, [], rest, by simp, by simp⟩
        intro x hx
        rcases List.mem_cons.mp hx with rfl | hx
        · exact le_rfl
        · exact le_trans (hbmax x hx) hgt

/-- C5 (amended).  For each parameter value, the selection returns a row of
that group with maximum objective; among tied rows the **earliest row in
input order** is selected (every row strictly before it in the group has a
strictly smaller objective), which makes the selection deterministic given
the input order; on the spec's example grid {0, 0.1} with A's objectives
{50, 42} and B's {48, 45} the selection is {0 ↦ A, 0.1 ↦ B}. -/
theorem best_per_alpha_spec (rows : List QRow) (a : ℚ) (r : QRow)
    (h : best_per_alpha rows a = some r) :
    (r ∈ rows ∧ r.alpha = a ∧
      (∀ x ∈ rows, x.alpha = a → x.objective ≤ r.objective) ∧
      ∃ l₁ l₂, rows.filter (fun x => decide (x.alpha = a)) = l₁ ++ r :: l₂ ∧
        ∀ p ∈ l₁, p.objective < r.objective) ∧
    best_per_alpha [⟨0, "A", 50⟩, ⟨0, "B", 48⟩, ⟨1/10, "A", 42⟩, ⟨1/10, "B", 45⟩] 0 =
      some ⟨0, "A", 50⟩ ∧
    best_per_alpha [⟨0, "A", 50⟩, ⟨0, "B", 48⟩, ⟨1/10, "A", 42⟩, ⟨1/10, "B", 45⟩] (1/10) =
      some ⟨1/10, "B", 45⟩ := by
  refine ⟨?_, ?_, ?_⟩
  · obtain ⟨hmem, hmax, l₁, l₂, hsplit, hfirst⟩ := firstMaxRow_spec h
    have hmem' := List.mem_filter.mp hmem
    refine ⟨hmem'.1, by simpa using hmem'.2, ?_, l₁, l₂, hsplit, hfirst⟩
    intro x hx hxa
    exact hmax x (List.mem_filter.mpr ⟨hx, by simpa using hxa⟩)
  · norm_num [best_per_alpha, List.filter_cons, firstMaxRow]
  · norm_num [best_per_alpha, List.filter_cons, firstMaxRow]

/-- Witness for C5: on the tie example, the selected row "B" is a member of
the group and attains the maximal objective. -/
theorem best_per_alpha_spec_witness :
    (⟨0, "B", 50⟩ : QRow) ∈ [(⟨0, "B", 50⟩ : QRow), ⟨0, "A", 50⟩] ∧
    (⟨0, "B", 50⟩ : QRow).alpha = 0 :=
  let h := best_per_alpha_spec [⟨0, "B", 50⟩, ⟨0, "A", 50⟩] 0 ⟨0, "B", 50⟩ rfl
  ⟨h.1.1, h.1.2.1⟩

/-! ### Alias resolution — `scripts/aggregate_results.py`, artifact loop

The normalizer reads aliased fields with Python `or` chains, e.g.
`cost = j.get('cost') or j.get('travel_cost') or j.get('Cost')`.
A Python `a or b` yields `a` when `a` is truthy and `b` otherwise, so a
*falsy* value (None/missing, 0, 0.0, False, "") under a higher-priority
alias falls through to the next alias.  JSON payload values are modelled by
`PyVal`, payloads by association lists. -/

inductive PyVal where
  | pnone : PyVal
  | pbool : Bool → PyVal
  | pnum : ℚ → PyVal
  | pstr : String → PyVal
deriving DecidableEq

def truthy : PyVal → Bool
  | .pnone => false
  | .pbool b => b
  | .pnum q => decide (q ≠ 0)
  | .pstr s => decide (s ≠ "")

def pyOr (a b : PyVal) : PyVal :=
  if truthy a then a else b

def getP (j : List (String × PyVal)) (k : String) : PyVal :=
  match j.find? (fun kv => kv.1 == k) with
  | some kv => kv.2
  | none => .pnone

def resolveCost (j : List (String × PyVal)) : PyVal :=
  pyOr (getP j "cost") (pyOr (getP j "travel_cost") (getP j "Cost"))

def resolveTime (j : List (String × PyVal)) : PyVal :=
  pyOr (getP j "computation_time") (pyOr (getP j "time") (getP j "computationTime"))

/-- Counterexample to C6: a cost of 0 stored under the highest-priority alias
`cost` does **not** win; the `or` chain skips the falsy value 0 and returns
the value 5 stored under the lower-priority alias `travel_cost`. -/
theorem resolveCost_zero_counterexample :
    getP [("cost", PyVal.pnum 0), ("travel_cost", PyVal.pnum 5)] "cost" =
      PyVal.pnum 0 ∧
    resolveCost [("cost", PyVal.pnum 0), ("travel_cost", PyVal.pnum 5)] =
      PyVal.pnum 5 := by
  constructor <;> rfl

/-- C6 (amended).  Alias resolution consults the fixed alias list in priority
order and returns the first alias whose value is present **and truthy**;
falsy values (missing/None, 0, 0.0, false, the empty string) under a
higher-priority alias are skipped in favour of later aliases, for the cost
chain (`cost`, `travel_cost`, `Cost`) and the time chain
(`computation_time`, `time`, `computationTime`). -/
theorem resolveAliases_spec (j : List (String × PyVal)) :
    (truthy (getP j "cost") = true → resolveCost j = getP j "cost") ∧
    (truthy (getP j "cost") = false → truthy (getP j "travel_cost") = true →
      resolveCost j = getP j "travel_cost") ∧
    (truthy (getP j "cost") = false → truthy (getP j "travel_cost") = false →
      resolveCost j = getP j "Cost") ∧
    (truthy (getP j "computation_time") = true →
      resolveTime j = getP j "computation_time") ∧
    (truthy (getP j "computation_time") = false → truthy (getP j "time") = true →
      resolveTime j = getP j "time") ∧
    (truthy (getP j "computation_time") = false → truthy (getP j "time") = false →
      resolveTime j = getP j "computationTime") := by
  refine ⟨fun h => ?_, fun h₁ h₂ => ?_, fun h₁ h₂ => ?_,
    fun h => ?_, fun h₁ h₂ => ?_, fun h₁ h₂ => ?_⟩ <;>
    simp [resolveCost, resolveTime, pyOr, *]

/-- Witness for C6 (amended): a truthy cost under `cost` wins, and with a
falsy `cost` a truthy `travel_cost` wins. -/
theorem resolveAliases_spec_witness :
    resolveCost [("cost", PyVal.pnum 3)] = getP [("cost", PyVal.pnum 3)] "cost" ∧
    resolveCost [("cost", PyVal.pnum 0), ("travel_cost", PyVal.pnum 5)] =
      getP [("cost", PyVal.pnum 0), ("travel_cost", PyVal.pnum 5)] "travel_cost" :=
  ⟨(resolveAliases_spec [("cost", PyVal.pnum 3)]).1 (by decide),
   (resolveAliases_spec [("cost", PyVal.pnum 0), ("travel_cost", PyVal.pnum 5)]).2.1
     (by decide) (by decide)⟩

/-! ### Cost-function inference — `scripts/aggregate_results.py`, artifact loop

When the payload's `cost_function`/`costFunction` fields are falsy, the code
first scans the artifact's path components innermost-first (`jf.parts[::-1]`,
which includes the filename) for one containing `'_'` and starting with
`'n'`, and takes its last `'_'`-separated piece; only when that yields
nothing does it fall back to the stem-suffix convention and finally to
`"distance"`.  Strings are modelled as `List Char`; the payload fields are
flattened to their string value with `[]` for missing/falsy. -/

def splitOnUnd : List Char → List (List Char)
  | [] => [[]]
  | c :: r =>
    match splitOnUnd r with
    | [] => [[]]
    | h :: t => if c = '_' then [] :: h :: t else (c :: h) :: t

def lastUnd (p : List Char) : List Char :=
  (splitOnUnd p).getLastD []

def folderCF (parts : List (List Char)) : List Char :=
  match parts.reverse.find? (fun p => p.contains '_' && ['n'].isPrefixOf p) with
  | some p => lastUnd p
  | none => []

def suffixCF (stem : List Char) : List Char :=
  if "_quadratic".data.isSuffixOf stem then "quadratic".data
  else if "_linear-load".data.isSuffixOf stem || "_linear_load".data.isSuffixOf stem then
    "linear-load".data
  else "distance".data

def inferCF (e₁ e₂ : List Char) (parts : List (List Char)) (stem : List Char) :
    List Char :=
  let cf := if e₁ ≠ [] then e₁ else e₂
  if cf ≠ [] then cf
  else if folderCF parts ≠ [] then folderCF parts
  else suffixCF stem

/-- Counterexample to C7: for an artifact with no cost-function field whose
path contains the folder `n200_quick` and whose stem carries none of the
special suffixes, the claim's three-step rule yields `distance`, but the code
infers `quick` from the folder name. -/
theorem inferCF_folder_counterexample :
    inferCF [] [] ["n200_quick".data] "foo".data = "quick".data ∧
    "quick".data ≠ "distance".data := by
  constructor
  · rfl
  · decide

/-- C7 (amended).  The cost-function is inferred in order: (a) the explicit
payload field (`cost_function`, then `costFunction`); (b) otherwise, from the
innermost path component (filename included) that contains `'_'` and starts
with `'n'`, taking its last `'_'`-separated piece; (c) otherwise the stem
suffix convention (`_quadratic` → `quadratic`, `_linear-load`/`_linear_load`
→ `linear-load`); (d) otherwise the default `distance`. -/
theorem inferCF_spec (e₁ e₂ : List Char) (parts : List (List Char))
    (stem : List Char) :
    (e₁ ≠ [] → inferCF e₁ e₂ parts stem = e₁) ∧
    (e₁ = [] → e₂ ≠ [] → inferCF e₁ e₂ parts stem = e₂) ∧
    (e₁ = [] → e₂ = [] → folderCF parts ≠ [] →
      inferCF e₁ e₂ parts stem = folderCF parts) ∧
    (e₁ = [] → e₂ = [] → folderCF parts = [] →
      inferCF e₁ e₂ parts stem = suffixCF stem) ∧
    ("_quadratic".data.isSuffixOf stem = true → suffixCF stem = "quadratic".data) ∧
    ("_quadratic".data.isSuffixOf stem = false →
      ("_linear-load".data.isSuffixOf stem || "_linear_load".data.isSuffixOf stem) = true →
      suffixCF stem = "linear-load".data) ∧
    ("_quadratic".data.isSuffixOf stem = false →
      ("_linear-load".data.isSuffixOf stem || "_linear_load".data.isSuffixOf stem) = false →
      suffixCF stem = "distance".data) := by
  refine ⟨fun h₁ => ?_, fun h₁ h₂ => ?_, fun h₁ h₂ h₃ => ?_, fun h₁ h₂ h₃ => ?_,
    fun h => ?_, fun h₁ h₂ => ?_, fun h₁ h₂ => ?_⟩ <;>
    simp [inferCF, suffixCF, *]

/-- Witness for C7 (amended): an artifact with no explicit field, no matching
folder, and a `_quadratic` stem suffix is inferred as `quadratic`. -/
theorem inferCF_spec_witness :
    inferCF [] [] [] "n100mosA_nn_run0_quadratic".data =
      suffixCF "n100mosA_nn_run0_quadratic".data ∧
    suffixCF "n100mosA_nn_run0_quadratic".data = "quadratic".data :=
  ⟨(inferCF_spec [] [] [] "n100mosA_nn_run0_quadratic".data).2.2.2.1
      rfl rfl (by decide),
   (inferCF_spec [] [] [] "n100mosA_nn_run0_quadratic".data).2.2.2.2.1
      (by decide)⟩

/-! ### Algorithm name from payload or stem — `scripts/aggregate_results.py` line 18

`alg = j.get('algorithm') or j.get('Algorithm') or jf.stem.split('_')[1]
if '_' in jf.stem else jf.stem`: by Python precedence the conditional binds
over the whole `or` chain, so when the stem has no underscore the entire
stem is used and the payload fields are never consulted. -/

def algOf (j : List (String × PyVal)) (stem : List Char) : PyVal :=
  if stem.contains '_' then
    pyOr (getP j "algorithm")
      (pyOr (getP j "Algorithm") (PyVal.pstr (String.mk ((splitOnUnd stem).getD 1 []))))
  else PyVal.pstr (String.mk stem)

/-- C10.  When the artifact's filename stem contains no underscore, the whole
stem becomes the algorithm name, for every payload — even one with a present
`algorithm` or `Algorithm` field. -/
theorem algOf_no_underscore (j : List (String × PyVal)) (stem : List Char)
    (h : stem.contains '_' = false) :
    algOf j stem = PyVal.pstr (String.mk stem) := by
  have h' : ¬ (stem.contains '_' = true) := by rw [h]; simp
  rw [algOf, if_neg h']

/-- Witness for C10: a payload carrying `algorithm = "X"` is ignored for the
underscore-free stem `abc`. -/
theorem algOf_no_underscore_witness :
    algOf [("algorithm", PyVal.pstr "X")] "abc".data =
      PyVal.pstr (String.mk "abc".data) :=
  algOf_no_underscore [("algorithm", PyVal.pstr "X")] "abc".data (by decide)

/-! ### Algorithm-name canonicalization —
`report/analyze_and_plot.py` `normalize_algo` and
`scripts/compare_linear_quadratic.py` `alg_short`

`normalize_algo` lowercases the name and maps it to a canonical label by
substring membership, returning the original name when nothing matches
(inputs are ASCII, so lowercasing is modelled per ASCII character).
`alg_short` is `str.replace('-run\d+','',regex=True).str.replace('"','').str.strip()`:
a single left-to-right pass deleting every non-overlapping `-run<digits>`
match, then removing double quotes and trimming whitespace. -/

def asciiLower (c : Char) : Char :=
  if 'A' ≤ c ∧ c ≤ 'Z' then Char.ofNat (c.toNat + 32) else c

def lowerL (l : List Char) : List Char :=
  l.map asciiLower

def containsSub (needle : List Char) : List Char → Bool
  | [] => needle.isEmpty
  | c :: t => needle.isPrefixOf (c :: t) || containsSub needle t

def normalizeAlgoAux (name : String) (l : List Char) : String :=
  if containsSub "exact".data l || containsSub "gurobi".data l then "Exact"
  else if containsSub "memetic".data l then "Memetic"
  else if containsSub "genetic".data l || l == "ga".data ||
      (containsSub "ga".data l && !containsSub "m".data l) then "GA"
  else if containsSub "mmas".data l then "MMAS"
  else if containsSub "aco".data l && !containsSub "mmas".data l then "ACO"
  else if containsSub "hybrid".data l then "Hybrid"
  else if l == "nn".data || l == "nnheuristic".data || l == "nearestneighbor".data then "NN"
  else name

def normalize_algo (name : String) : String :=
  normalizeAlgoAux name (lowerL name.data)

/-- `re.sub('-run\d+', '', s)` with fuel (one unit per examined character;
the list length always suffices, each step consumes at least one element). -/
def stripRunsF : ℕ → List Char → List Char
  | 0, l => l
  | _ + 1, [] => []
  | f + 1, '-' :: 'r' :: 'u' :: 'n' :: c :: rest =>
    if c.isDigit then stripRunsF f (rest.dropWhile Char.isDigit)
    else '-' :: stripRunsF f ('r' :: 'u' :: 'n' :: c :: rest)
  | f + 1, c :: rest => c :: stripRunsF f rest

def stripRuns (l : List Char) : List Char :=
  stripRunsF l.length l

def removeQuotes (l : List Char) : List Char :=
  l.filter (fun c => c ≠ '"')

def trimL (l : List Char) : List Char :=
  ((l.dropWhile Char.isWhitespace).reverse.dropWhile Char.isWhitespace).reverse

def alg_short (s : String) : String :=
  String.mk (trimL (removeQuotes (stripRuns s.data)))

/-- Counterexample to C8: `alg_short` is not idempotent.  On the name
`A-ru-run1n1` one pass of the `-run<digits>` deletion yields `A-run1`
(the deletion created a fresh match), and a second pass yields `A`. -/
theorem alg_short_not_idempotent :
    alg_short (alg_short "A-ru-run1n1") ≠ alg_short "A-ru-run1n1" := by
  decide

lemma normalize_algo_cases (s : String) :
    normalize_algo s = "Exact" ∨ normalize_algo s = "Memetic" ∨
    normalize_algo s = "GA" ∨ normalize_algo s = "MMAS" ∨
    normalize_algo s = "ACO" ∨ normalize_algo s = "Hybrid" ∨
    normalize_algo s = "NN" ∨ normalize_algo s = s := by
  rw [normalize_algo, normalizeAlgoAux]
  split_ifs <;> tauto

/-- C8 (amended).  Mapping to the canonical algorithm label
(`normalize_algo`) is idempotent: re-canonicalizing any canonicalized name
returns it unchanged.  Run-suffix stripping (`alg_short`) removes a trailing
numeric run tag (`ILS-run0` → `ILS`) but is *not* idempotent in general,
because deleting all `-run<digits>` matches in one pass can create a new
match (see the counterexample). -/
theorem normalize_algo_idempotent :
    (∀ s, normalize_algo (normalize_algo s) = normalize_algo s) ∧
    alg_short "ILS-run0" = "ILS" := by
  refine ⟨?_, by decide⟩
  intro s
  rcases normalize_algo_cases s with h | h | h | h | h | h | h | h <;> rw [h]
  · decide
  · decide
  · decide
  · decide
  · decide
  · decide
  · decide
  · exact h

/-! ### Aggregation statistics — `scripts/aggregate_results.py` /
`scripts/prepare_results_for_plots.py`, `stats`

`df.groupby('algorithm').agg(avg_cost=('cost','mean'), avg_time=('time','mean'),
feasible=('feasible','sum'), total=('instance','count'))`: per algorithm, the
mean cost, mean time, number of feasible rows (the 0/1 flags summed) and the
row count.  Float arithmetic is modelled exactly over ℚ. -/

structure RRow where
  algorithm : String
  cost : ℚ
  time : ℚ
  feasible : Bool
  inst : String
deriving DecidableEq

structure AggStat where
  avg_cost : ℚ
  avg_time : ℚ
  feasible : ℕ
  total : ℕ
deriving DecidableEq

def stats (rows : List RRow) (a : String) : Option AggStat :=
  let g := rows.filter (fun r => r.algorithm == a)
  if g.length = 0 then none
  else some
    { avg_cost := (g.map RRow.cost).sum / g.length
      avg_time := (g.map RRow.time).sum / g.length
      feasible := (g.map (fun r => if r.feasible then 1 else 0)).sum
      total := g.length }

/-- C9.  Aggregation is order-independent: for every permutation of the
canonical `Result` rows, every algorithm's aggregate record (mean cost, mean
time, feasible count, total count) is unchanged. -/
theorem stats_perm_invariant (rows rows' : List RRow) (h : rows.Perm rows')
    (a : String) : stats rows a = stats rows' a := by
  have hf := h.filter (fun r => r.algorithm == a)
  simp only [stats]
  rw [hf.length_eq, (hf.map RRow.cost).sum_eq, (hf.map RRow.time).sum_eq,
    (hf.map (fun r => if r.feasible then (1 : ℕ) else 0)).sum_eq]

/-- Witness for C9: swapping two concrete rows leaves the aggregate of
algorithm "A" unchanged. -/
theorem stats_perm_invariant_witness :
    stats [⟨"A", 10, 1, true, "i1"⟩, ⟨"A", 20, 3, false, "i1"⟩] "A" =
      stats [⟨"A", 20, 3, false, "i1"⟩, ⟨"A", 10, 1, true, "i1"⟩] "A" :=
  stats_perm_invariant _ _
    (List.Perm.swap (⟨"A", 20, 3, false, "i1"⟩ : RRow) ⟨"A", 10, 1, true, "i1"⟩ []) "A"

end PDTSP
